import Mathlib

/-!
Verification of the `numen` version-history subsystem
(`src/numen/history/__init__.py`).

The filesystem is modelled as an association list from paths (lists of
components) to file entries, plus a set of directories created with
`os.makedirs`.  Content files hold their text; metadata files hold the
structured record that the Python code serialises as JSON (the
serialisation is modelled as the identity on the record, since
`json.dump`/`json.load` round-trip it exactly).  Reading a metadata file
as raw text, or a raw text file as JSON, only arises in degenerate
stores never produced by the program; those reads are modelled as
failures.  Clock readings are passed explicitly: `Clock.compact` is
`datetime.now().strftime("%Y%m%d%H%M%S")` and `Clock.iso` is
`datetime.now().isoformat()`.

Python's `sorted` is a stable sort; it is modelled by a structural
stable insertion sort (stable sorts agree on all inputs).  String
comparison is modelled by code-point lexicographic order on the
character list, which is exactly Python's `str` ordering.
-/

namespace Numen

abbrev Path := List String

/-- The metadata record written to `<version_id>.json` by `save_version`
and `save_backup_version`. -/
structure Metadata where
  version_id : String
  timestamp : String
  message : String
  note_path : String
deriving DecidableEq

/-- A file's content: raw note text, or the JSON metadata record. -/
inductive Entry where
  | text (s : String)
  | meta (m : Metadata)
deriving DecidableEq

/-- Filesystem state: files keyed by path, plus created directories. -/
structure FS where
  files : List (Path × Entry)
  dirs : List Path
deriving DecidableEq

def FS.read (fs : FS) (p : Path) : Option Entry :=
  (fs.files.find? (fun q => decide (q.1 = p))).map (fun q => q.2)

def FS.fileExists (fs : FS) (p : Path) : Bool :=
  (fs.read p).isSome

def FS.dirExists (fs : FS) (d : Path) : Bool :=
  fs.dirs.contains d

/-- `open(p, "w")` followed by a full write: replaces the entry at `p`. -/
def FS.write (fs : FS) (p : Path) (e : Entry) : FS :=
  { fs with files := (p, e) :: fs.files.filter (fun q => decide (q.1 ≠ p)) }

/-- `os.makedirs(d, exist_ok=True)`. -/
def FS.mkdir (fs : FS) (d : Path) : FS :=
  if fs.dirs.contains d then fs else { fs with dirs := d :: fs.dirs }

/-- `shutil.rmtree(d)`: removes the directory and everything under it. -/
def FS.rmtree (fs : FS) (d : Path) : FS :=
  { files := fs.files.filter (fun q => ! d.isPrefixOf q.1),
    dirs := fs.dirs.filter (fun q => ! d.isPrefixOf q) }

/-- The configured history root `~/.numen/history` (`get_history_dir`;
its `os.makedirs` of the root affects no observable behaviour). -/
def history_root : Path := ["~", ".numen", "history"]

/-- The sibling notes directory `~/.numen/notes`, i.e.
`os.path.join(get_history_dir().parent, "notes")`. -/
def notes_dir : Path := ["~", ".numen", "notes"]

def note_history_dir (note_name : String) : Path :=
  history_root ++ [note_name]

/-- `pathlib.PurePath.stem`: the file name without its last suffix; a
dot at position 0 or at the very end does not start a suffix. -/
def stemOf (name : String) : String :=
  match name.data.reverse.findIdx? (fun c => c == '.') with
  | none => name
  | some r =>
    let i := name.data.length - 1 - r
    if 0 < i ∧ i < name.data.length - 1 then String.mk (name.data.take i) else name

/-- A note's file path, split into directory and file name. -/
structure NotePath where
  dir : Path
  fileName : String
deriving DecidableEq

def NotePath.livePath (np : NotePath) : Path := np.dir ++ [np.fileName]

def NotePath.stem (np : NotePath) : String := stemOf np.fileName

/-- The canonical path of the note named `note_name`, as built by
`get_version_content` and `compare_versions`. -/
def notePathFor (note_name : String) : NotePath :=
  { dir := notes_dir, fileName := note_name ++ ".md" }

/-- One reading of the wall clock, in both formats the code uses. -/
structure Clock where
  compact : String
  iso : String
deriving DecidableEq

/-- A version reference: a version-id string or an integer index. -/
inductive VersionRef where
  | id (s : String)
  | idx (i : Int)
deriving DecidableEq

def pathString (p : Path) : String :=
  String.intercalate "/" p

/-- Code-point comparison of character lists: Python `str` order. -/
def charsLt : List Char → List Char → Bool
  | _, [] => false
  | [], _ :: _ => true
  | a :: as, b :: bs =>
    if a.toNat < b.toNat then true
    else if b.toNat < a.toNat then false
    else charsLt as bs

def pyStrLt (a b : String) : Bool := charsLt a.data b.data

/-- Descending comparator on strings (for `sorted(..., reverse=True)`). -/
def nameGe (a b : String) : Bool := ! pyStrLt a b

/-- Stable insertion of `x` after every element `y` with `le y x`. -/
def insertAfterLe {α : Type} (le : α → α → Bool) (x : α) : List α → List α
  | [] => [x]
  | y :: ys => if le y x then y :: insertAfterLe le x ys else x :: y :: ys

/-- Stable sort (agrees with Python's stable `sorted` for total `le`). -/
def stableSort {α : Type} (le : α → α → Bool) (l : List α) : List α :=
  l.foldl (fun acc x => insertAfterLe le x acc) []

def strEndsWith (s suffix_ : String) : Bool :=
  suffix_.data.isSuffixOf s.data

/-- `save_version`: snapshot the live note.  Returns `none` when the
note file does not exist (the Python code raises `FileNotFoundError`),
otherwise the updated filesystem and the new version id. -/
def save_version (fs : FS) (note_path : NotePath) (message : Option String)
    (now : Clock) : Option (FS × String) :=
  match fs.read note_path.livePath with
  | none => none
  | some e =>
    let version_id := now.compact
    let note_name := note_path.stem
    let hdir := note_history_dir note_name
    let fs1 := fs.mkdir hdir
    let fs2 := fs1.write (hdir ++ [version_id ++ ".md"]) e
    let md : Metadata :=
      { version_id := version_id
        timestamp := now.iso
        -- `message or "Version saved"`: None and "" both fall back
        message := match message with
          | none => "Version saved"
          | some m => if m = "" then "Version saved" else m
        note_path := pathString note_path.livePath }
    some (fs2.write (hdir ++ [version_id ++ ".json"]) (Entry.meta md), version_id)

/-- The `history_dir.glob("*.json")` file names in the note's history
directory. -/
def globJsonNames (fs : FS) (dir : Path) : List String :=
  fs.files.filterMap (fun q =>
    if q.1.length = dir.length + 1 ∧ q.1.take dir.length = dir then
      match q.1.getLast? with
      | some n => if strEndsWith n ".json" then some n else none
      | none => none
    else none)

/-- `list_versions`: all version metadata, newest first (file names
sorted descending). -/
def list_versions (fs : FS) (note_path : NotePath) : List Metadata :=
  let hdir := note_history_dir note_path.stem
  if fs.dirExists hdir then
    (stableSort nameGe (globJsonNames fs hdir)).filterMap (fun n =>
      match fs.read (hdir ++ [n]) with
      | some (Entry.meta m) => some m
      | _ => none)
  else []

/-- `resolve_version_id`: a string reference is returned unchanged; an
integer index is resolved against the newest-first version list. -/
def resolve_version_id (fs : FS) (note_path : NotePath) (version_ref : VersionRef) :
    Option String :=
  match version_ref with
  | VersionRef.id s => some s
  | VersionRef.idx i =>
    let versions := list_versions fs note_path
    if versions.isEmpty then none
    else
      let all_versions := versions.reverse
      if i < 0 ∧ i.natAbs ≤ all_versions.length then
        -- `versions[version_ref]` with a negative, in-range index
        (versions[versions.length - i.natAbs]?).map (fun m => m.version_id)
      else if 0 ≤ i ∧ i < (all_versions.length : Int) then
        (all_versions[i.toNat]?).map (fun m => m.version_id)
      else none

/-- `get_version_content`: raw stored content of one version. -/
def get_version_content (fs : FS) (note_name : String) (version_ref : VersionRef) :
    Option String :=
  let hdir := note_history_dir note_name
  let vid? : Option String :=
    match version_ref with
    | VersionRef.idx i =>
      match resolve_version_id fs (notePathFor note_name) (VersionRef.idx i) with
      | none => none
      | some v => if v = "" then none else some v
    | VersionRef.id s => some s
  match vid? with
  | none => none
  | some version_id =>
    match fs.read (hdir ++ [version_id ++ ".md"]) with
    | some (Entry.text c) => some c
    | _ => none

/-- `save_backup_version`: snapshot the live note under a
`backup_`-prefixed id; silently does nothing when the note file is
absent. -/
def save_backup_version (fs : FS) (note_path : NotePath) (now : Clock) : FS :=
  match fs.read note_path.livePath with
  | none => fs
  | some e =>
    let backup_id := "backup_" ++ now.compact
    let hdir := note_history_dir note_path.stem
    let fs1 := fs.mkdir hdir
    let fs2 := fs1.write (hdir ++ [backup_id ++ ".md"]) e
    let md : Metadata :=
      { version_id := backup_id
        timestamp := now.iso
        message := "Automatic backup before restore"
        note_path := pathString note_path.livePath }
    fs2.write (hdir ++ [backup_id ++ ".json"]) (Entry.meta md)

/-- `restore_version`: resolve, back up the live state, then copy the
stored version over the live note.  `shutil.copy2` reads the version
file at copy time, i.e. after the backup step. -/
def restore_version (fs : FS) (note_path : NotePath) (version_ref : VersionRef)
    (now : Clock) : FS × Bool :=
  let hdir := note_history_dir note_path.stem
  match resolve_version_id fs note_path version_ref with
  | none => (fs, false)
  | some version_id =>
    if version_id = "" then (fs, false)
    else
      let version_path := hdir ++ [version_id ++ ".md"]
      match fs.read version_path with
      | none => (fs, false)
      | some e =>
        let fs1 := save_backup_version fs note_path now
        (fs1.write note_path.livePath ((fs1.read version_path).getD e), true)

/-- `remove_history`: delete the note's whole per-note history
directory; succeed as a no-op when it does not exist. -/
def remove_history (fs : FS) (note_path : NotePath) : FS × Bool :=
  let hdir := note_history_dir note_path.stem
  if fs.dirExists hdir then (fs.rmtree hdir, true) else (fs, true)

/-!
Model of `difflib.unified_diff` (Python standard library), as invoked
by `compare_versions`: `SequenceMatcher(None, a, b)` with the default
`autojunk=True`, and the default context size `n=3`.  With
`isjunk=None` the junk set `bjunk` is empty, so the two junk extension
loops of `find_longest_match` never run and are omitted; the autojunk
popularity filter on `b2j` is kept.  Loops are written with explicit
fuel chosen so that it never runs out before the Python loop exits.
-/

/-- `str.splitlines()` line-break characters. -/
def isLineBreak (c : Char) : Bool :=
  c == '\n' || c == '\r' || c == '\x0b' || c == '\x0c' ||
  c == '\x1c' || c == '\x1d' || c == '\x1e' || c == '\x85' ||
  c == '\u2028' || c == '\u2029'

/-- `str.splitlines()`; `prevCR` records that the previous character
was a `\r` whose line was already emitted, so a following `\n` is
swallowed as the second half of `\r\n`. -/
def splitlinesGo : List Char → Bool → List Char → List String
  | [], _, acc => if acc.isEmpty then [] else [String.mk acc.reverse]
  | c :: cs, prevCR, acc =>
    if prevCR ∧ c = '\n' then splitlinesGo cs false acc
    else if c = '\r' then String.mk acc.reverse :: splitlinesGo cs true []
    else if isLineBreak c then String.mk acc.reverse :: splitlinesGo cs false []
    else splitlinesGo cs false (c :: acc)

def splitlines (s : String) : List String := splitlinesGo s.data false []

/-- The autojunk heuristic: with `len(b) >= 200`, elements occurring
more than `len(b) // 100 + 1` times are dropped from `b2j`. -/
def bPopular (b : List String) (x : String) : Bool :=
  decide (200 ≤ b.length) && decide (b.length / 100 + 1 < b.count x)

/-- `b2j[x]`: the ascending positions of `x` in `b`, with popular
elements removed (empty list for elements not in `b`). -/
def b2j (b : List String) (x : String) : List Nat :=
  if bPopular b x then []
  else (List.range b.length).filter (fun j => decide (b[j]? = some x))

/-- `j2len.get(j, 0)` on the association-list model of the dict. -/
def j2lenGet (d : List (Nat × Nat)) (j : Nat) : Nat :=
  match d.find? (fun q => q.1 == j) with
  | some q => q.2
  | none => 0

/-- State of the `find_longest_match` main loop: the current row's
`newj2len` dict under construction, and the best match so far. -/
structure FlmState where
  j2len : List (Nat × Nat)
  besti : Nat
  bestj : Nat
  bestsize : Nat
deriving DecidableEq

/-- One candidate `j` of the inner loop.  `d0` is the previous row's
dict (`j2lenget` is bound before the inner loop in Python).  Python
looks up key `j-1`, which for `j = 0` is the never-present key `-1`;
the first branch mirrors that.  The bump `i-k+1`, `j-k+1` is written
`i+1-k`, `j+1-k`: chain values never exceed `i+1` resp. `j+1`, so the
saturating subtraction agrees with Python's integers. -/
def flmStep (d0 : List (Nat × Nat)) (i : Nat) (st : FlmState) (j : Nat) : FlmState :=
  let k := (if j = 0 then 0 else j2lenGet d0 (j - 1)) + 1
  let d' := (j, k) :: st.j2len
  if st.bestsize < k then
    { j2len := d', besti := i + 1 - k, bestj := j + 1 - k, bestsize := k }
  else
    { st with j2len := d' }

/-- One row `i` of the main loop: reset `newj2len`, then fold the
candidate positions of `a[i]` in `b` restricted to `[blo, bhi)`
(`continue` below `blo`, `break` at `bhi`, over an ascending list). -/
def flmRow (b2jf : String → List Nat) (a : List String) (blo bhi : Nat)
    (st : FlmState) (i : Nat) : FlmState :=
  let js := (b2jf (a.getD i "")).filter (fun j => decide (blo ≤ j) && decide (j < bhi))
  js.foldl (flmStep st.j2len i) { st with j2len := [] }

/-- The main loop of `find_longest_match` over rows `alo..ahi-1`. -/
def flmMain (b2jf : String → List Nat) (a : List String) (alo ahi blo bhi : Nat) :
    FlmState :=
  (List.range' alo (ahi - alo)).foldl (flmRow b2jf a blo bhi)
    { j2len := [], besti := alo, bestj := blo, bestsize := 0 }

/-- Backward non-junk extension.  Called with `fuel = besti`; the loop
decrements `besti` once per iteration and stops at `alo`, so the fuel
never runs out first. -/
def extendBack (a b : List String) (alo blo : Nat) :
    Nat → Nat → Nat → Nat → Nat × Nat × Nat
  | 0, besti, bestj, bestsize => (besti, bestj, bestsize)
  | fuel + 1, besti, bestj, bestsize =>
    if alo < besti ∧ blo < bestj ∧ a.getD (besti - 1) "" = b.getD (bestj - 1) "" then
      extendBack a b alo blo fuel (besti - 1) (bestj - 1) (bestsize + 1)
    else (besti, bestj, bestsize)

/-- Forward non-junk extension.  Called with
`fuel = ahi - (besti + bestsize)`; the loop grows `bestsize` once per
iteration and stops when `besti + bestsize` reaches `ahi`. -/
def extendFwd (a b : List String) (ahi bhi besti bestj : Nat) :
    Nat → Nat → Nat
  | 0, bestsize => bestsize
  | fuel + 1, bestsize =>
    if besti + bestsize < ahi ∧ bestj + bestsize < bhi ∧
        a.getD (besti + bestsize) "" = b.getD (bestj + bestsize) "" then
      extendFwd a b ahi bhi besti bestj fuel (bestsize + 1)
    else bestsize

/-- `SequenceMatcher.find_longest_match` (with empty junk set). -/
def find_longest_match (a b : List String) (alo ahi blo bhi : Nat) :
    Nat × Nat × Nat :=
  let st := flmMain (b2j b) a alo ahi blo bhi
  let back := extendBack a b alo blo st.besti st.besti st.bestj st.bestsize
  match back with
  | (bi, bj, sz) => (bi, bj, extendFwd a b ahi bhi bi bj (ahi - (bi + sz)) sz)

/-- The recursive block collection of `get_matching_blocks` (Python
uses an explicit queue and then sorts; the traversal order is
irrelevant after sorting).  Each level's subranges are strictly
smaller, so `fuel = length + 1` at the top call never runs out. -/
def matching_blocks_aux (a b : List String) :
    Nat → Nat → Nat → Nat → Nat → List (Nat × Nat × Nat)
  | 0, _, _, _, _ => []
  | fuel + 1, alo, ahi, blo, bhi =>
    let r := find_longest_match a b alo ahi blo bhi
    let i := r.1
    let j := r.2.1
    let k := r.2.2
    if k = 0 then []
    else
      matching_blocks_aux a b fuel alo i blo j ++
        (i, j, k) :: matching_blocks_aux a b fuel (i + k) ahi (j + k) bhi

/-- Lexicographic order on `Match` triples, as Python's tuple sort. -/
def tripleLe (x y : Nat × Nat × Nat) : Bool :=
  decide (x.1 < y.1) ||
    (decide (x.1 = y.1) &&
      (decide (x.2.1 < y.2.1) ||
        (decide (x.2.1 = y.2.1) && decide (x.2.2 ≤ y.2.2))))

/-- The adjacency-merging step of `get_matching_blocks`. -/
def mergeStep (st : (Nat × Nat × Nat) × List (Nat × Nat × Nat))
    (blk : Nat × Nat × Nat) : (Nat × Nat × Nat) × List (Nat × Nat × Nat) :=
  if st.1.1 + st.1.2.2 = blk.1 ∧ st.1.2.1 + st.1.2.2 = blk.2.1 then
    ((st.1.1, st.1.2.1, st.1.2.2 + blk.2.2), st.2)
  else
    (blk, if st.1.2.2 = 0 then st.2 else st.2 ++ [(st.1.1, st.1.2.1, st.1.2.2)])

/-- `SequenceMatcher.get_matching_blocks`: sort the collected blocks,
merge adjacent ones, then append the `(la, lb, 0)` sentinel. -/
def get_matching_blocks (a b : List String) : List (Nat × Nat × Nat) :=
  let la := a.length
  let lb := b.length
  let blocks := stableSort tripleLe (matching_blocks_aux a b (la + 1) 0 la 0 lb)
  let fin := blocks.foldl mergeStep ((0, 0, 0), [])
  (if fin.1.2.2 = 0 then fin.2 else fin.2 ++ [fin.1]) ++ [(la, lb, 0)]

inductive Tag where
  | replace
  | delete
  | insert
  | equal
deriving DecidableEq

structure Opcode where
  tag : Tag
  i1 : Nat
  i2 : Nat
  j1 : Nat
  j2 : Nat
deriving DecidableEq

/-- `SequenceMatcher.get_opcodes`. -/
def get_opcodes (a b : List String) : List Opcode :=
  let step := fun (st : Nat × Nat × List Opcode) (blk : Nat × Nat × Nat) =>
    let i := st.1
    let j := st.2.1
    let acc := st.2.2
    let ai := blk.1
    let bj := blk.2.1
    let size := blk.2.2
    let acc1 :=
      if i < ai ∧ j < bj then acc ++ [⟨Tag.replace, i, ai, j, bj⟩]
      else if i < ai then acc ++ [⟨Tag.delete, i, ai, j, bj⟩]
      else if j < bj then acc ++ [⟨Tag.insert, i, ai, j, bj⟩]
      else acc
    let i2 := ai + size
    let j2 := bj + size
    (i2, j2, if size ≠ 0 then acc1 ++ [⟨Tag.equal, ai, i2, bj, j2⟩] else acc1)
  ((get_matching_blocks a b).foldl step (0, 0, [])).2.2

/-- Trimming of a leading equal opcode in `get_grouped_opcodes`. -/
def groupTrimHead (n : Nat) : List Opcode → List Opcode
  | c :: rest =>
    if c.tag = Tag.equal then
      ⟨c.tag, max c.i1 (c.i2 - n), c.i2, max c.j1 (c.j2 - n), c.j2⟩ :: rest
    else c :: rest
  | [] => []

/-- Trimming of a trailing equal opcode in `get_grouped_opcodes`. -/
def groupTrimLast (n : Nat) (codes : List Opcode) : List Opcode :=
  match codes.getLast? with
  | some c =>
    if c.tag = Tag.equal then
      codes.dropLast ++ [⟨c.tag, c.i1, min c.i2 (c.i1 + n), c.j1, min c.j2 (c.j1 + n)⟩]
    else codes
  | none => codes

/-- The group-splitting step of `get_grouped_opcodes`: a long interior
equal run closes the current group. -/
def groupStep (n : Nat) (st : List Opcode × List (List Opcode)) (c : Opcode) :
    List Opcode × List (List Opcode) :=
  if c.tag = Tag.equal ∧ 2 * n < c.i2 - c.i1 then
    ([⟨c.tag, max c.i1 (c.i2 - n), c.i2, max c.j1 (c.j2 - n), c.j2⟩],
     st.2 ++ [st.1 ++ [⟨c.tag, c.i1, min c.i2 (c.i1 + n), c.j1, min c.j2 (c.j1 + n)⟩]])
  else (st.1 ++ [c], st.2)

/-- `SequenceMatcher.get_grouped_opcodes(n = 3)`. -/
def get_grouped_opcodes (a b : List String) : List (List Opcode) :=
  let n := 3
  let codes0 := get_opcodes a b
  let codes1 : List Opcode := if codes0.isEmpty then [⟨Tag.equal, 0, 1, 0, 1⟩] else codes0
  let codes3 := groupTrimLast n (groupTrimHead n codes1)
  let fin := codes3.foldl (groupStep n) ([], [])
  let group := fin.1
  let isSingleEqual : Bool :=
    match group with
    | [c] => decide (c.tag = Tag.equal)
    | _ => false
  if group.isEmpty || isSingleEqual then fin.2 else fin.2 ++ [group]

/-- `difflib._format_range_unified`. -/
def formatRangeUnified (start stop : Nat) : String :=
  let beginning := start + 1
  let length := stop - start
  if length = 1 then Nat.repr beginning
  else Nat.repr (if length = 0 then beginning - 1 else beginning) ++ "," ++
    Nat.repr length

def opcodeLines (a b : List String) (c : Opcode) : List String :=
  match c.tag with
  | Tag.equal => ((a.take c.i2).drop c.i1).map (fun line => " " ++ line)
  | Tag.replace =>
    ((a.take c.i2).drop c.i1).map (fun line => "-" ++ line) ++
      ((b.take c.j2).drop c.j1).map (fun line => "+" ++ line)
  | Tag.delete => ((a.take c.i2).drop c.i1).map (fun line => "-" ++ line)
  | Tag.insert => ((b.take c.j2).drop c.j1).map (fun line => "+" ++ line)

def groupLines (a b : List String) (group : List Opcode) : List String :=
  let first := group.headD ⟨Tag.equal, 0, 0, 0, 0⟩
  let last := group.getLastD ⟨Tag.equal, 0, 0, 0, 0⟩
  ("@@ -" ++ formatRangeUnified first.i1 last.i2 ++ " +" ++
      formatRangeUnified first.j1 last.j2 ++ " @@") ::
    (group.map (opcodeLines a b)).flatten

/-- `difflib.unified_diff(a, b, fromfile, tofile, lineterm="")` with no
file dates: the `---`/`+++` headers are emitted before the first group
only. -/
def unified_diff (a b : List String) (fromfile tofile : String) : List String :=
  let groups := get_grouped_opcodes a b
  if groups.isEmpty then []
  else ("--- " ++ fromfile) :: ("+++ " ++ tofile) ::
    (groups.map (groupLines a b)).flatten

/-- `compare_versions`: resolve both references, fetch both contents,
and return the unified diff, or a single `"Error: ..."` element. -/
def compare_versions (fs : FS) (note_name : String) (ref1 ref2 : VersionRef) :
    List String :=
  let note_path := notePathFor note_name
  match resolve_version_id fs note_path ref1,
      resolve_version_id fs note_path ref2 with
  | some id1, some id2 =>
    if id1 = "" ∨ id2 = "" then ["Error: One or both versions not found"]
    else
      match get_version_content fs note_name (VersionRef.id id1),
          get_version_content fs note_name (VersionRef.id id2) with
      | some c1, some c2 =>
        unified_diff (splitlines c1) (splitlines c2)
          ("Version " ++ id1) ("Version " ++ id2)
      | _, _ => ["Error: One or both versions not found"]
  | _, _ => ["Error: One or both versions not found"]

def strStartsWith (s p : String) : Bool :=
  p.data.isPrefixOf s.data

/-- Diagonal chain length used in the analysis of
`find_longest_match` on identical sequences: the number of consecutive
non-popular elements ending at position `i`, counted from `alo`. -/
def dch (l : List String) (alo : Nat) : Nat → Nat
  | i =>
    if bPopular l (l.getD i "") then 0
    else if h : i ≤ alo then 1
    else dch l alo (i - 1) + 1
termination_by i => i
decreasing_by omega

/-- Invariant of the `find_longest_match` main loop on identical
sequences (`a = b = l`, `blo = alo`, `bhi = ahi`), holding before row
`i` is processed: the best match is diagonal and within range, its
size dominates every diagonal chain ending before `i`, and the
previous row's dict entries are bounded by (and, on the diagonal,
equal to) the diagonal chain `dch`. -/
def FlmInv (l : List String) (alo i : Nat) (st : FlmState) : Prop :=
  st.bestj = st.besti ∧
  alo ≤ st.besti ∧
  st.besti + st.bestsize ≤ i ∧
  (∀ j', alo ≤ j' → j' < i → dch l alo j' ≤ st.bestsize) ∧
  (∀ q ∈ st.j2len, alo ≤ q.1 ∧ q.2 ≤ dch l alo q.1 ∧
    (alo < i → q.2 ≤ dch l alo (i - 1))) ∧
  (i = alo → st.j2len = []) ∧
  j2lenGet st.j2len (i - 1) = (if i = alo then 0 else dch l alo (i - 1))

/-! Concrete fixtures used by witnesses and counterexamples. -/

def emptyFS : FS := { files := [], dirs := [] }

def wNote : NotePath := notePathFor "demo"

def wMeta1 : Metadata :=
  { version_id := "20240101000001", timestamp := "2024-01-01T00:00:01"
    message := "first", note_path := "~/.numen/notes/demo.md" }

def wMeta2 : Metadata :=
  { version_id := "20240101000002", timestamp := "2024-01-01T00:00:02"
    message := "second", note_path := "~/.numen/notes/demo.md" }

/-- A well-formed store: note `demo` with live content `"C"` and two
saved versions (`"A"` oldest, `"B"` newest), plus an unrelated note. -/
def wFS : FS :=
  { files :=
      [ (note_history_dir "demo" ++ ["20240101000001.json"], Entry.meta wMeta1)
      , (note_history_dir "demo" ++ ["20240101000001.md"], Entry.text "A")
      , (note_history_dir "demo" ++ ["20240101000002.json"], Entry.meta wMeta2)
      , (note_history_dir "demo" ++ ["20240101000002.md"], Entry.text "B")
      , (wNote.livePath, Entry.text "C")
      , (note_history_dir "other" ++ ["20230101000001.md"], Entry.text "Z")
      , ((notePathFor "other").livePath, Entry.text "Y") ]
    dirs := [note_history_dir "demo", note_history_dir "other"] }

def wClock : Clock :=
  { compact := "20240101000010", iso := "2024-01-01T00:00:10" }

/-- Fixture for the same-second collision: the resolved version is the
backup id that `restore_version` itself is about to generate. -/
def collMeta : Metadata :=
  { version_id := "backup_20240101000010", timestamp := "2024-01-01T00:00:10"
    message := "Automatic backup before restore"
    note_path := "~/.numen/notes/demo.md" }

def collFS : FS :=
  { files :=
      [ (note_history_dir "demo" ++ ["backup_20240101000010.json"], Entry.meta collMeta)
      , (note_history_dir "demo" ++ ["backup_20240101000010.md"], Entry.text "L0")
      , (wNote.livePath, Entry.text "V") ]
    dirs := [note_history_dir "demo"] }

/-- A store for note `demo` with one saved version but no live file. -/
def mFS : FS :=
  { files :=
      [ (note_history_dir "demo" ++ ["20240101000001.json"], Entry.meta wMeta1)
      , (note_history_dir "demo" ++ ["20240101000001.md"], Entry.text "A") ]
    dirs := [note_history_dir "demo"] }

/-! ## Theorems -/

/-- C1: for a note with `N ≥ 1` stored versions, an integer reference
resolves as follows: a non-negative `i < N` yields the entry at
position `N-1-i` of the newest-first list (index 0 is the oldest); a
negative `i` with `|i| ≤ N` indexes the newest-first list directly,
Python-style (position `N+i`); any other integer yields `none`.  The
resolver is a total function, so it never raises. -/
theorem resolve_index_spec (fs : FS) (np : NotePath) (i : Int)
    (h : list_versions fs np ≠ []) :
    (0 ≤ i → i < ((list_versions fs np).length : Int) →
      resolve_version_id fs np (VersionRef.idx i) =
        ((list_versions fs np)[(list_versions fs np).length - 1 - i.toNat]?).map
          (fun m => m.version_id)) ∧
    (i < 0 → i.natAbs ≤ (list_versions fs np).length →
      resolve_version_id fs np (VersionRef.idx i) =
        ((list_versions fs np)[(((list_versions fs np).length : Int) + i).toNat]?).map
          (fun m => m.version_id)) ∧
    ((i < 0 ∧ (list_versions fs np).length < i.natAbs) ∨
        (0 ≤ i ∧ ((list_versions fs np).length : Int) ≤ i) →
      resolve_version_id fs np (VersionRef.idx i) = none) := by
  have hne : (list_versions fs np).isEmpty = false := by
    simpa [List.isEmpty_iff] using h
  refine ⟨fun h0 hlt => ?_, fun hneg hle => ?_, fun hc => ?_⟩
  · simp only [resolve_version_id, hne, Bool.false_eq_true, if_false,
      List.length_reverse]
    rw [if_neg (by omega), if_pos (by constructor <;> omega)]
    rw [List.getElem?_reverse (by omega : i.toNat < (list_versions fs np).length)]
  · simp only [resolve_version_id, hne, Bool.false_eq_true, if_false,
      List.length_reverse]
    rw [if_pos (by constructor <;> omega)]
    have heq : (list_versions fs np).length - i.natAbs =
        (((list_versions fs np).length : Int) + i).toNat := by omega
    rw [heq]
  · simp only [resolve_version_id, hne, Bool.false_eq_true, if_false,
      List.length_reverse]
    rcases hc with ⟨h1, h2⟩ | ⟨h1, h2⟩
    · rw [if_neg (by omega), if_neg (by omega)]
    · rw [if_neg (by omega), if_neg (by omega)]

theorem resolve_index_spec_witness :
    list_versions wFS wNote ≠ [] ∧
    resolve_version_id wFS wNote (VersionRef.idx 0) = some "20240101000001" := by
  have h : list_versions wFS wNote ≠ [] := by decide
  have hc := (resolve_index_spec wFS wNote 0 h).1 (by decide) (by decide)
  exact ⟨h, by rw [hc]; decide⟩

/-- C2 (counterexample): on a note with zero saved versions, a
version-id *string* reference does not resolve to `none`; the resolver
returns the string unchanged. -/
theorem resolve_empty_history_cex :
    list_versions emptyFS wNote = [] ∧
    resolve_version_id emptyFS wNote (VersionRef.id "20240101000001") ≠ none := by
  decide

/-- C2 (amended): for a note with zero saved versions, every *integer*
reference resolves to `none`; a *string* reference is returned
unchanged (the resolver trusts string references and performs no
existence check). -/
theorem resolve_empty_history_amended (fs : FS) (np : NotePath)
    (h : list_versions fs np = []) :
    (∀ i : Int, resolve_version_id fs np (VersionRef.idx i) = none) ∧
    (∀ s : String, resolve_version_id fs np (VersionRef.id s) = some s) := by
  exact ⟨fun i => by simp [resolve_version_id, h], fun s => rfl⟩

theorem resolve_empty_history_amended_witness :
    list_versions emptyFS wNote = [] ∧
    resolve_version_id emptyFS wNote (VersionRef.idx 5) = none :=
  ⟨by decide, (resolve_empty_history_amended emptyFS wNote (by decide)).1 5⟩

/-- C4: when the reference does not resolve (including the falsy empty
id), or the resolved version's content file is missing, `restore`
returns `false` and the filesystem — in particular the live note — is
exactly unchanged: nothing is overwritten and no backup is created. -/
theorem restore_failure_frame (fs : FS) (np : NotePath) (ref : VersionRef)
    (now : Clock)
    (h : resolve_version_id fs np ref = none ∨
         resolve_version_id fs np ref = some "" ∨
         (∃ vid, resolve_version_id fs np ref = some vid ∧ vid ≠ "" ∧
           fs.read (note_history_dir np.stem ++ [vid ++ ".md"]) = none)) :
    restore_version fs np ref now = (fs, false) := by
  rcases h with h | h | ⟨vid, h1, h2, h3⟩
  · simp [restore_version, h]
  · simp [restore_version, h]
  · simp [restore_version, h1, h2, h3]

theorem restore_failure_frame_witness :
    resolve_version_id wFS wNote (VersionRef.idx 99) = none ∧
    restore_version wFS wNote (VersionRef.idx 99) wClock = (wFS, false) := by
  have h : resolve_version_id wFS wNote (VersionRef.idx 99) = none := by decide
  exact ⟨h, restore_failure_frame wFS wNote (VersionRef.idx 99) wClock (Or.inl h)⟩

/-! Helper lemmas about the filesystem model. -/

theorem find?_filter_of_imp {α : Type} (l : List α) (f g : α → Bool)
    (h : ∀ x, g x = true → f x = true) : (l.filter f).find? g = l.find? g := by
  induction l with
  | nil => rfl
  | cons a l ih =>
    cases hfa : f a with
    | true =>
      rw [List.filter_cons_of_pos hfa]
      cases hga : g a with
      | true => rw [List.find?_cons_of_pos _ hga, List.find?_cons_of_pos _ hga]
      | false => rw [List.find?_cons_of_neg _ (by simp [hga]),
          List.find?_cons_of_neg _ (by simp [hga]), ih]
    | false =>
      have hga : g a = false := by
        cases hga : g a with
        | true => exact absurd (h a hga) (by simp [hfa])
        | false => rfl
      rw [List.filter_cons_of_neg (by simp [hfa]),
        List.find?_cons_of_neg _ (by simp [hga]), ih]

theorem find?_filter_of_none {α : Type} (l : List α) (f g : α → Bool)
    (h : ∀ x, g x = true → f x = false) : (l.filter f).find? g = none := by
  induction l with
  | nil => rfl
  | cons a l ih =>
    cases hfa : f a with
    | true =>
      have hga : g a = false := by
        cases hga : g a with
        | true => exact absurd (h a hga) (by simp [hfa])
        | false => rfl
      rw [List.filter_cons_of_pos hfa, List.find?_cons_of_neg _ (by simp [hga]), ih]
    | false => rw [List.filter_cons_of_neg (by simp [hfa]), ih]

theorem FS.read_write (fs : FS) (p : Path) (e : Entry) :
    (fs.write p e).read p = some e := by
  simp [FS.read, FS.write, List.find?_cons_of_pos]

theorem FS.read_write_ne (fs : FS) (p q : Path) (e : Entry) (h : q ≠ p) :
    (fs.write p e).read q = fs.read q := by
  simp only [FS.read, FS.write]
  rw [List.find?_cons_of_neg _ (by simp; exact fun hc => h hc.symm),
    find?_filter_of_imp]
  intro x hx
  have hx' : x.1 = q := by simpa using hx
  simp [hx', h]

theorem FS.read_mkdir (fs : FS) (d p : Path) : (fs.mkdir d).read p = fs.read p := by
  simp only [FS.mkdir]
  split <;> rfl

theorem FS.dirs_mkdir_eq (fs : FS) (d : Path) (h : fs.dirs.contains d = true) :
    (fs.mkdir d).dirs = fs.dirs := by
  simp only [FS.mkdir]
  rw [if_pos h]

theorem FS.dirExists_mkdir_self (fs : FS) (d : Path) :
    (fs.mkdir d).dirExists d = true := by
  simp only [FS.mkdir, FS.dirExists]
  split
  · assumption
  · simp [List.contains_cons]

theorem FS.read_rmtree_of_not_under (fs : FS) (d p : Path)
    (h : d.isPrefixOf p = false) : (fs.rmtree d).read p = fs.read p := by
  simp only [FS.read, FS.rmtree]
  rw [find?_filter_of_imp]
  intro x hx
  have hx' : x.1 = p := by simpa using hx
  simp [hx', h]

theorem FS.read_rmtree_of_under (fs : FS) (d p : Path)
    (h : d.isPrefixOf p = true) : (fs.rmtree d).read p = none := by
  simp only [FS.read, FS.rmtree]
  rw [find?_filter_of_none]
  · rfl
  · intro x hx
    have hx' : x.1 = p := by simpa using hx
    simp [hx', h]

theorem FS.dirExists_rmtree (fs : FS) (d d' : Path) :
    (fs.rmtree d).dirExists d' = (fs.dirExists d' && ! d.isPrefixOf d') := by
  simp only [FS.dirExists, FS.rmtree]
  cases hpf : d.isPrefixOf d' with
  | false => simp [List.mem_filter, hpf]
  | true => simp [List.mem_filter, hpf]

/-! Helper lemmas about paths and strings. -/

theorem path_snoc_ne (d : Path) (x y : String) (h : x ≠ y) : d ++ [x] ≠ d ++ [y] := by
  intro hc
  exact h (by simpa using List.append_cancel_left hc)

theorem string_append_cancel_left {s a b : String} (h : s ++ a = s ++ b) : a = b := by
  have hd := congrArg String.data h
  rw [String.data_append, String.data_append] at hd
  exact congrArg String.mk (List.append_cancel_left hd)

theorem string_append_cancel_right {a b s : String} (h : a ++ s = b ++ s) : a = b := by
  have hd := congrArg String.data h
  rw [String.data_append, String.data_append] at hd
  exact congrArg String.mk (List.append_cancel_right hd)

theorem md_ne_json (s t : String) : s ++ ".md" ≠ t ++ ".json" := by
  intro hc
  have e1 : (s ++ ".md").data.reverse.head? = some 'd' := by
    rw [String.data_append, show (".md" : String).data = ['.', 'm', 'd'] from rfl,
      List.reverse_append]
    rfl
  have e2 : (t ++ ".json").data.reverse.head? = some 'n' := by
    rw [String.data_append,
      show (".json" : String).data = ['.', 'j', 's', 'o', 'n'] from rfl,
      List.reverse_append]
    rfl
  rw [hc, e2] at e1
  simp at e1

theorem livePath_ne_hist (nm s x : String) :
    (notePathFor nm).livePath ≠ note_history_dir s ++ [x] := by
  intro hc
  have := congrArg List.length hc
  simp [notePathFor, NotePath.livePath, notes_dir, note_history_dir,
    history_root] at this

theorem stem_notePathFor (nm : String) (h : nm ≠ "") :
    (notePathFor nm).stem = nm := by
  have hne : nm.data ≠ [] := by
    intro hd
    exact h (congrArg String.mk hd)
  have hlenpos : 0 < nm.data.length := by
    cases hd : nm.data with
    | nil => exact absurd hd hne
    | cons a l => simp [hd]
  show stemOf (nm ++ ".md") = nm
  unfold stemOf
  have hdata : (nm ++ ".md").data = nm.data ++ ['.', 'm', 'd'] := by
    rw [String.data_append]
  rw [hdata, List.reverse_append,
    show (['.', 'm', 'd'] : List Char).reverse = ['d', 'm', '.'] from rfl]
  rw [show List.findIdx? (fun c => c == '.') (['d', 'm', '.'] ++ nm.data.reverse)
      = some 2 from rfl]
  simp only [List.length_append, List.length_cons, List.length_nil]
  have hi : nm.data.length + 3 - 1 - 2 = nm.data.length := by omega
  rw [hi, if_pos ⟨hlenpos, by omega⟩, List.take_left]

/-! Helper lemmas about the stable sort. -/

theorem insertAfterLe_perm {α : Type} (le : α → α → Bool) (x : α) (l : List α) :
    (insertAfterLe le x l).Perm (x :: l) := by
  induction l with
  | nil => exact List.Perm.refl _
  | cons y ys ih =>
    simp only [insertAfterLe]
    split
    · exact (ih.cons y).trans (List.Perm.swap x y ys)
    · exact List.Perm.refl _

theorem stableSort_perm {α : Type} (le : α → α → Bool) (l : List α) :
    (stableSort le l).Perm l := by
  suffices haux : ∀ (l acc : List α),
      (l.foldl (fun acc x => insertAfterLe le x acc) acc).Perm (acc ++ l) by
    simpa using haux l []
  intro l
  induction l with
  | nil => intro acc; simp
  | cons x xs ih =>
    intro acc
    refine (ih (insertAfterLe le x acc)).trans ?_
    refine (((insertAfterLe_perm le x acc).append_right xs).trans ?_)
    simpa using List.perm_middle.symm

theorem mem_stableSort {α : Type} (le : α → α → Bool) (l : List α) (a : α) :
    a ∈ stableSort le l ↔ a ∈ l :=
  (stableSort_perm le l).mem_iff

theorem strEndsWith_append (s t : String) : strEndsWith (s ++ t) t = true := by
  unfold strEndsWith
  rw [String.data_append]
  exact (List.isSuffixOf_iff_suffix).mpr (List.suffix_append _ _)

theorem isPrefixOf_self (l : Path) : l.isPrefixOf l = true := by
  induction l with
  | nil => rfl
  | cons a t ih => simp [List.isPrefixOf, ih]

/-- C5: round-trip — saving an existing note with live content `C` and
then fetching the content of the returned version id yields exactly
`C`. -/
theorem save_get_roundtrip (fs : FS) (np : NotePath) (msg : Option String)
    (now : Clock) (C : String)
    (h : fs.read np.livePath = some (Entry.text C)) :
    ∃ fs', save_version fs np msg now = some (fs', now.compact) ∧
      get_version_content fs' np.stem (VersionRef.id now.compact) = some C := by
  simp only [save_version, h]
  refine ⟨_, rfl, ?_⟩
  simp only [get_version_content]
  rw [FS.read_write_ne _ _ _ _
      (path_snoc_ne _ _ _ (md_ne_json now.compact now.compact)),
    FS.read_write]

theorem save_get_roundtrip_witness :
    wFS.read wNote.livePath = some (Entry.text "C") ∧
    ∃ fs', save_version wFS wNote (some "msg") wClock = some (fs', wClock.compact) ∧
      get_version_content fs' wNote.stem (VersionRef.id wClock.compact) = some "C" :=
  ⟨by decide, save_get_roundtrip wFS wNote (some "msg") wClock "C" (by decide)⟩

/-- C7: `remove_history` on a note with no history directory returns
`true` and changes nothing; on a note with history it returns `true`,
deletes every file under the note's history directory, removes the
directory itself, and leaves everything outside that directory — in
particular every other note's history — unchanged.  I/O failure (the
only way the code returns `false`) is outside the filesystem model. -/
theorem remove_history_spec (fs : FS) (np : NotePath) :
    (fs.dirExists (note_history_dir np.stem) = false →
      remove_history fs np = (fs, true)) ∧
    (fs.dirExists (note_history_dir np.stem) = true →
      (remove_history fs np).2 = true ∧
      (∀ p : Path, (note_history_dir np.stem).isPrefixOf p = true →
        ((remove_history fs np).1).read p = none) ∧
      (∀ p : Path, (note_history_dir np.stem).isPrefixOf p = false →
        ((remove_history fs np).1).read p = fs.read p) ∧
      ((remove_history fs np).1).dirExists (note_history_dir np.stem) = false ∧
      (∀ s : String, s ≠ np.stem → ∀ rest : Path,
        ((remove_history fs np).1).read (note_history_dir s ++ rest) =
          fs.read (note_history_dir s ++ rest))) := by
  constructor
  · intro h
    simp [remove_history, h]
  · intro h
    have hr : remove_history fs np = (fs.rmtree (note_history_dir np.stem), true) := by
      simp [remove_history, h]
    rw [hr]
    refine ⟨rfl, ?_, ?_, ?_, ?_⟩
    · intro p hp
      exact FS.read_rmtree_of_under fs _ p hp
    · intro p hp
      exact FS.read_rmtree_of_not_under fs _ p hp
    · rw [FS.dirExists_rmtree]
      simp [isPrefixOf_self]
    · intro s hs rest
      apply FS.read_rmtree_of_not_under
      simp [note_history_dir, history_root, List.isPrefixOf, beq_iff_eq,
        show ¬ (np.stem = s) from fun hc => hs hc.symm]

theorem remove_history_spec_witness :
    wFS.dirExists (note_history_dir wNote.stem) = true ∧
    (remove_history wFS wNote).2 = true ∧
    (remove_history wFS wNote).1.dirExists (note_history_dir wNote.stem) = false := by
  have h := (remove_history_spec wFS wNote).2 (by decide)
  exact ⟨by decide, h.1, h.2.2.2.1⟩

/-- C10: when the live note file is absent but the reference resolves
to a version with a stored content file, `restore` still returns
`true`, creates the live file with exactly the stored entry, and skips
the backup step entirely: every other path and the directory set are
unchanged. -/
theorem restore_missing_live (fs : FS) (np : NotePath) (ref : VersionRef)
    (now : Clock) (ev : Entry) (vid : String)
    (hlive : fs.read np.livePath = none)
    (hres : resolve_version_id fs np ref = some vid)
    (hvid : vid ≠ "")
    (hv : fs.read (note_history_dir np.stem ++ [vid ++ ".md"]) = some ev) :
    restore_version fs np ref now = (fs.write np.livePath ev, true) ∧
    (fs.write np.livePath ev).read np.livePath = some ev ∧
    (∀ p : Path, p ≠ np.livePath → (fs.write np.livePath ev).read p = fs.read p) ∧
    (fs.write np.livePath ev).dirs = fs.dirs := by
  have hb : save_backup_version fs np now = fs := by
    simp [save_backup_version, hlive]
  refine ⟨?_, FS.read_write _ _ _, fun p hp => FS.read_write_ne _ _ _ _ hp, rfl⟩
  simp [restore_version, hres, hvid, hb, hv]

theorem restore_missing_live_witness :
    mFS.read wNote.livePath = none ∧
    restore_version mFS wNote (VersionRef.idx 0) wClock =
      (mFS.write wNote.livePath (Entry.text "A"), true) := by
  have h := restore_missing_live mFS wNote (VersionRef.idx 0) wClock
    (Entry.text "A") "20240101000001" (by decide) (by decide) (by decide) (by decide)
  exact ⟨by decide, h.1⟩

/-- C3 (counterexample): when the resolved version id coincides with
the backup id generated at restore time (restoring a backup made in
the same clock second), the pre-restore backup overwrites the version
file before the copy, so the live note does *not* end up equal to the
version's stored content — refuting the claim as stated, whose other
premises all hold here. -/
theorem restore_success_cex :
    resolve_version_id collFS wNote (VersionRef.id "backup_20240101000010") =
      some "backup_20240101000010" ∧
    collFS.read wNote.livePath = some (Entry.text "V") ∧
    collFS.read (note_history_dir "demo" ++ ["backup_20240101000010.md"]) =
      some (Entry.text "L0") ∧
    (restore_version collFS wNote (VersionRef.id "backup_20240101000010") wClock).2
      = true ∧
    (restore_version collFS wNote
        (VersionRef.id "backup_20240101000010") wClock).1.read wNote.livePath =
      some (Entry.text "V") ∧
    Entry.text "V" ≠ Entry.text "L0" := by
  decide

/-- C3 (amended): for a note whose live file exists and a reference
resolving to a version with stored content, *provided the resolved id
differs from the backup id generated at restore time* (no same-second
collision with the new backup), `restore` returns `true`, the live
note afterwards equals the version's stored content byte-for-byte, and
a new `backup_`-prefixed version with message "Automatic backup before
restore" and the pre-restore live content exists in the note's
history, both as files and in `list_versions`. -/
theorem restore_success_amended (name : String) (fs : FS) (ref : VersionRef)
    (now : Clock) (Clive Cv vid : String)
    (hname : name ≠ "")
    (hlive : fs.read (notePathFor name).livePath = some (Entry.text Clive))
    (hres : resolve_version_id fs (notePathFor name) ref = some vid)
    (hvid : vid ≠ "")
    (hv : fs.read (note_history_dir name ++ [vid ++ ".md"]) = some (Entry.text Cv))
    (hfresh : vid ≠ "backup_" ++ now.compact) :
    (restore_version fs (notePathFor name) ref now).2 = true ∧
    (restore_version fs (notePathFor name) ref now).1.read
        (notePathFor name).livePath = some (Entry.text Cv) ∧
    (restore_version fs (notePathFor name) ref now).1.read
        (note_history_dir name ++ ["backup_" ++ now.compact ++ ".md"]) =
      some (Entry.text Clive) ∧
    (restore_version fs (notePathFor name) ref now).1.read
        (note_history_dir name ++ ["backup_" ++ now.compact ++ ".json"]) =
      some (Entry.meta
        { version_id := "backup_" ++ now.compact
          timestamp := now.iso
          message := "Automatic backup before restore"
          note_path := pathString (notePathFor name).livePath }) ∧
    ({ version_id := "backup_" ++ now.compact
       timestamp := now.iso
       message := "Automatic backup before restore"
       note_path := pathString (notePathFor name).livePath } : Metadata) ∈
      list_versions (restore_version fs (notePathFor name) ref now).1
        (notePathFor name) := by
  have hstem : (notePathFor name).stem = name := stem_notePathFor name hname
  have hbackup : save_backup_version fs (notePathFor name) now =
      (((fs.mkdir (note_history_dir name)).write
          (note_history_dir name ++ ["backup_" ++ now.compact ++ ".md"])
          (Entry.text Clive)).write
        (note_history_dir name ++ ["backup_" ++ now.compact ++ ".json"])
        (Entry.meta
          { version_id := "backup_" ++ now.compact
            timestamp := now.iso
            message := "Automatic backup before restore"
            note_path := pathString (notePathFor name).livePath })) := by
    simp only [save_backup_version, hlive, hstem]
  have hvne1 : note_history_dir name ++ [vid ++ ".md"] ≠
      note_history_dir name ++ ["backup_" ++ now.compact ++ ".json"] :=
    path_snoc_ne _ _ _ (md_ne_json vid ("backup_" ++ now.compact))
  have hvne2 : note_history_dir name ++ [vid ++ ".md"] ≠
      note_history_dir name ++ ["backup_" ++ now.compact ++ ".md"] :=
    path_snoc_ne _ _ _ (fun hc => hfresh (string_append_cancel_right hc))
  have hvread : (save_backup_version fs (notePathFor name) now).read
      (note_history_dir name ++ [vid ++ ".md"]) = some (Entry.text Cv) := by
    rw [hbackup, FS.read_write_ne _ _ _ _ hvne1, FS.read_write_ne _ _ _ _ hvne2,
      FS.read_mkdir, hv]
  have hrestore : restore_version fs (notePathFor name) ref now =
      ((save_backup_version fs (notePathFor name) now).write
        (notePathFor name).livePath (Entry.text Cv), true) := by
    simp only [restore_version, hstem, hres, hv]
    rw [if_neg hvid]
    simp only [hvread, Option.getD_some]
  have hlive_md : (notePathFor name).livePath ≠
      note_history_dir name ++ ["backup_" ++ now.compact ++ ".md"] :=
    livePath_ne_hist name name _
  have hlive_json : (notePathFor name).livePath ≠
      note_history_dir name ++ ["backup_" ++ now.compact ++ ".json"] :=
    livePath_ne_hist name name _
  have hmd_json : note_history_dir name ++ ["backup_" ++ now.compact ++ ".md"] ≠
      note_history_dir name ++ ["backup_" ++ now.compact ++ ".json"] :=
    path_snoc_ne _ _ _ (md_ne_json _ _)
  have h2 : (restore_version fs (notePathFor name) ref now).1.read
      (notePathFor name).livePath = some (Entry.text Cv) := by
    simp only [hrestore]
    exact FS.read_write _ _ _
  have h3 : (restore_version fs (notePathFor name) ref now).1.read
      (note_history_dir name ++ ["backup_" ++ now.compact ++ ".md"]) =
      some (Entry.text Clive) := by
    simp only [hrestore]
    rw [FS.read_write_ne _ _ _ _ (Ne.symm hlive_md), hbackup,
      FS.read_write_ne _ _ _ _ hmd_json, FS.read_write]
  have h4 : (restore_version fs (notePathFor name) ref now).1.read
      (note_history_dir name ++ ["backup_" ++ now.compact ++ ".json"]) =
      some (Entry.meta
        { version_id := "backup_" ++ now.compact
          timestamp := now.iso
          message := "Automatic backup before restore"
          note_path := pathString (notePathFor name).livePath }) := by
    simp only [hrestore]
    rw [FS.read_write_ne _ _ _ _ (Ne.symm hlive_json), hbackup, FS.read_write]
  have hdirx : (restore_version fs (notePathFor name) ref now).1.dirExists
      (note_history_dir name) = true := by
    simp only [hrestore, hbackup]
    exact FS.dirExists_mkdir_self fs _
  refine ⟨by rw [hrestore], h2, h3, h4, ?_⟩
  simp only [list_versions, hstem]
  rw [if_pos hdirx]
  refine List.mem_filterMap.mpr
    ⟨"backup_" ++ now.compact ++ ".json", ?_, by rw [h4]⟩
  refine (mem_stableSort _ _ _).mpr ?_
  refine List.mem_filterMap.mpr
    ⟨(note_history_dir name ++ ["backup_" ++ now.compact ++ ".json"],
       Entry.meta
        { version_id := "backup_" ++ now.compact
          timestamp := now.iso
          message := "Automatic backup before restore"
          note_path := pathString (notePathFor name).livePath }), ?_, ?_⟩
  · simp only [hrestore, hbackup, FS.write]
    refine List.mem_cons_of_mem _ (List.mem_filter.mpr ⟨List.mem_cons_self _ _, ?_⟩)
    simp only [decide_eq_true_eq]
    exact Ne.symm hlive_json
  · simp only [List.length_append, List.length_cons, List.length_nil,
      List.take_left, List.getLast?_concat, strEndsWith_append, and_self, if_true,
      if_pos]

theorem restore_success_amended_witness :
    (restore_version wFS wNote (VersionRef.id "20240101000001") wClock).2 = true ∧
    (restore_version wFS wNote (VersionRef.id "20240101000001") wClock).1.read
      wNote.livePath = some (Entry.text "A") := by
  have h := restore_success_amended "demo" wFS (VersionRef.id "20240101000001")
    wClock "C" "A" "20240101000001" (by decide) (by decide) rfl (by decide)
    (by decide) (by decide)
  exact ⟨h.1, h.2.1⟩

/-! Helper lemmas about the code-point string order. -/

theorem char_toNat_inj {a b : Char} (h : a.toNat = b.toNat) : a = b :=
  Char.ext (UInt32.ext_iff.mpr h)

theorem charsLt_asymm : ∀ (as bs : List Char),
    charsLt as bs = true → charsLt bs as = false := by
  intro as
  induction as with
  | nil =>
    intro bs h
    cases bs with
    | nil => simp [charsLt] at h
    | cons b bs => rfl
  | cons a as ih =>
    intro bs h
    cases bs with
    | nil => simp [charsLt] at h
    | cons b bs =>
      simp only [charsLt] at h ⊢
      split_ifs at h ⊢ <;>
        first
        | rfl
        | omega
        | exact ih bs h
        | simp_all

theorem charsLt_false_trans : ∀ (as bs cs : List Char),
    charsLt as bs = false → charsLt bs cs = false → charsLt as cs = false := by
  intro as
  induction as with
  | nil =>
    intro bs cs h1 h2
    cases bs with
    | nil =>
      cases cs with
      | nil => rfl
      | cons c cs => exact h2
    | cons b bs => simp [charsLt] at h1
  | cons a as ih =>
    intro bs cs h1 h2
    cases bs with
    | nil =>
      cases cs with
      | nil => rfl
      | cons c cs => simp [charsLt] at h2
    | cons b bs =>
      cases cs with
      | nil => rfl
      | cons c cs =>
        simp only [charsLt] at h1 h2 ⊢
        split_ifs at h1 h2 ⊢ <;>
          first
          | rfl
          | omega
          | exact ih bs cs h1 h2
          | simp_all

theorem charsLt_eq_of_false_false : ∀ (as bs : List Char),
    charsLt as bs = false → charsLt bs as = false → as = bs := by
  intro as
  induction as with
  | nil =>
    intro bs h1 _
    cases bs with
    | nil => rfl
    | cons b bs => simp [charsLt] at h1
  | cons a as ih =>
    intro bs h1 h2
    cases bs with
    | nil => simp [charsLt] at h2
    | cons b bs =>
      simp only [charsLt] at h1 h2
      split_ifs at h1 h2 <;>
        first
        | omega
        | exact absurd h1 (by decide)
        | exact absurd h2 (by decide)
        | (have hab : a = b := char_toNat_inj (by omega)
           have htl : as = bs := ih bs h1 h2
           rw [hab, htl])

theorem nameGe_trans (a b c : String) :
    nameGe a b = true → nameGe b c = true → nameGe a c = true := by
  simp only [nameGe, Bool.not_eq_true', pyStrLt]
  exact fun h1 h2 => charsLt_false_trans _ _ _ h1 h2

theorem nameGe_total (a b : String) : nameGe a b = true ∨ nameGe b a = true := by
  simp only [nameGe, Bool.not_eq_true', pyStrLt]
  cases h : charsLt a.data b.data with
  | false => exact Or.inl rfl
  | true => exact Or.inr (charsLt_asymm _ _ h)

theorem pyStrLt_of_ge_ne (a b : String) (h1 : nameGe a b = true) (h2 : a ≠ b) :
    pyStrLt b a = true := by
  simp only [nameGe, Bool.not_eq_true', pyStrLt] at h1 ⊢
  cases h : charsLt b.data a.data with
  | true => rfl
  | false =>
    exact absurd (congrArg String.mk (charsLt_eq_of_false_false _ _ h1 h)) h2

theorem charsLt_append_congr : ∀ (xs ys zs : List Char),
    ¬ xs <+: ys → ¬ ys <+: xs →
    charsLt (xs ++ zs) (ys ++ zs) = charsLt xs ys := by
  intro xs
  induction xs with
  | nil => exact fun ys zs h1 _ => absurd List.nil_prefix h1
  | cons a as ih =>
    intro ys zs h1 h2
    cases ys with
    | nil => exact absurd List.nil_prefix h2
    | cons b bs =>
      simp only [List.cons_append, charsLt]
      split_ifs with g1 g2
      · rfl
      · rfl
      · have hab : a = b := char_toNat_inj (by omega)
        subst hab
        exact ih bs zs (fun hp => h1 (List.cons_prefix_cons.mpr ⟨rfl, hp⟩))
          (fun hp => h2 (List.cons_prefix_cons.mpr ⟨rfl, hp⟩))

/-! Sortedness of the stable sort. -/

theorem mem_insertAfterLe {α : Type} (le : α → α → Bool) (x : α) (l : List α)
    (z : α) : z ∈ insertAfterLe le x l ↔ z = x ∨ z ∈ l :=
  (insertAfterLe_perm le x l).mem_iff.trans List.mem_cons

theorem insertAfterLe_pairwise {α : Type} (le : α → α → Bool)
    (htr : ∀ a b c, le a b = true → le b c = true → le a c = true)
    (hto : ∀ a b, le a b = true ∨ le b a = true)
    (x : α) (l : List α) (h : l.Pairwise (fun a b => le a b = true)) :
    (insertAfterLe le x l).Pairwise (fun a b => le a b = true) := by
  induction l with
  | nil => simp [insertAfterLe]
  | cons y ys ih =>
    rw [List.pairwise_cons] at h
    obtain ⟨hy, hys⟩ := h
    simp only [insertAfterLe]
    split_ifs with hyx
    · rw [List.pairwise_cons]
      refine ⟨fun z hz => ?_, ih hys⟩
      rcases (mem_insertAfterLe le x ys z).mp hz with rfl | hz'
      · exact hyx
      · exact hy z hz'
    · have hxy : le x y = true := by
        rcases hto x y with h' | h'
        · exact h'
        · exact absurd h' hyx
      rw [List.pairwise_cons]
      refine ⟨fun z hz => ?_, List.pairwise_cons.mpr ⟨hy, hys⟩⟩
      rcases List.mem_cons.mp hz with rfl | hz'
      · exact hxy
      · exact htr x y z hxy (hy z hz')

theorem stableSort_pairwise {α : Type} (le : α → α → Bool)
    (htr : ∀ a b c, le a b = true → le b c = true → le a c = true)
    (hto : ∀ a b, le a b = true ∨ le b a = true) (l : List α) :
    (stableSort le l).Pairwise (fun a b => le a b = true) := by
  suffices haux : ∀ (l acc : List α),
      acc.Pairwise (fun a b => le a b = true) →
      (l.foldl (fun acc x => insertAfterLe le x acc) acc).Pairwise
        (fun a b => le a b = true) from haux l [] (by simp)
  intro l
  induction l with
  | nil => exact fun acc h => h
  | cons x xs ih =>
    exact fun acc h => ih _ (insertAfterLe_pairwise le htr hto x acc h)

theorem pairwise_filterMap_of {α β : Type} (f : α → Option β)
    {R : α → α → Prop} {S : β → β → Prop} :
    ∀ (l : List α), l.Pairwise R →
    (∀ a b, R a b → ∀ x, f a = some x → ∀ y, f b = some y → S x y) →
    (l.filterMap f).Pairwise S := by
  intro l
  induction l with
  | nil => intro _ _; simp
  | cons a l ih =>
    intro h himp
    rw [List.pairwise_cons] at h
    rw [List.filterMap_cons]
    cases hfa : f a with
    | none => exact ih h.2 himp
    | some x =>
      rw [List.pairwise_cons]
      refine ⟨fun y hy => ?_, ih h.2 himp⟩
      obtain ⟨b, hb, hfb⟩ := List.mem_filterMap.mp hy
      exact himp a b (h.1 b hb) x hfa y hfb

/-- C6: for every note, `list_versions` is total: it returns `[]` when
the note has no history directory, and otherwise returns exactly the
stored versions (membership characterised by the stored `.json`
artifact), sorted strictly descending by `version_id` — newest first —
under the store invariants maintained by the program: metadata file
names are `<version_id>.json`, names are distinct, and no stored id is
a proper code-point prefix of another (true of both generated id
shapes). -/
theorem list_versions_spec (fs : FS) (np : NotePath)
    (hnd : (globJsonNames fs (note_history_dir np.stem)).Nodup)
    (hwf : ∀ n ∈ globJsonNames fs (note_history_dir np.stem),
      ∃ m : Metadata,
        fs.read (note_history_dir np.stem ++ [n]) = some (Entry.meta m) ∧
        n = m.version_id ++ ".json")
    (hpf : ∀ u v : String,
      (u ++ ".json") ∈ globJsonNames fs (note_history_dir np.stem) →
      (v ++ ".json") ∈ globJsonNames fs (note_history_dir np.stem) →
      u ≠ v → ¬ u.data <+: v.data) :
    (fs.dirExists (note_history_dir np.stem) = false → list_versions fs np = []) ∧
    (fs.dirExists (note_history_dir np.stem) = true →
      ∀ m : Metadata,
        m ∈ list_versions fs np ↔
          (m.version_id ++ ".json") ∈ globJsonNames fs (note_history_dir np.stem) ∧
          fs.read (note_history_dir np.stem ++ [m.version_id ++ ".json"]) =
            some (Entry.meta m)) ∧
    (list_versions fs np).Pairwise
      (fun m1 m2 => pyStrLt m2.version_id m1.version_id = true) := by
  have hextract : ∀ n ∈ globJsonNames fs (note_history_dir np.stem),
      ∀ m : Metadata,
        (match fs.read (note_history_dir np.stem ++ [n]) with
          | some (Entry.meta m) => some m
          | _ => none) = some m →
        fs.read (note_history_dir np.stem ++ [n]) = some (Entry.meta m) ∧
          n = m.version_id ++ ".json" := by
    intro n hn m hfn
    cases hread : fs.read (note_history_dir np.stem ++ [n]) with
    | none => rw [hread] at hfn; simp at hfn
    | some e =>
      cases e with
      | text s => rw [hread] at hfn; simp at hfn
      | meta m' =>
        rw [hread] at hfn
        simp only [Option.some.injEq] at hfn
        obtain ⟨m'', hr'', hn''⟩ := hwf n hn
        rw [hread] at hr''
        simp only [Option.some.injEq, Entry.meta.injEq] at hr''
        refine ⟨?_, ?_⟩
        · rw [hfn]
        · rw [hn'', ← hr'', hfn]
  refine ⟨fun h => by simp [list_versions, h], fun hdir m => ?_, ?_⟩
  · simp only [list_versions]
    rw [if_pos hdir]
    constructor
    · intro hm
      obtain ⟨n, hn, hfn⟩ := List.mem_filterMap.mp hm
      have hng := (mem_stableSort _ _ _).mp hn
      obtain ⟨hread, hnid⟩ := hextract n hng m hfn
      rw [hnid] at hng hread
      exact ⟨hng, hread⟩
    · intro ⟨hng, hread⟩
      exact List.mem_filterMap.mpr
        ⟨m.version_id ++ ".json", (mem_stableSort _ _ _).mpr hng, by rw [hread]⟩
  · cases hdir : fs.dirExists (note_history_dir np.stem) with
    | false => simp [list_versions, hdir]
    | true =>
      simp only [list_versions]
      rw [if_pos hdir]
      have h1 := stableSort_pairwise nameGe nameGe_trans nameGe_total
        (globJsonNames fs (note_history_dir np.stem))
      have h2 : (stableSort nameGe
          (globJsonNames fs (note_history_dir np.stem))).Nodup :=
        ((stableSort_perm _ _).nodup_iff).mpr hnd
      have hmemg : ∀ z ∈ stableSort nameGe
          (globJsonNames fs (note_history_dir np.stem)),
          z ∈ globJsonNames fs (note_history_dir np.stem) :=
        fun z hz => (mem_stableSort _ _ _).mp hz
      have hR : (stableSort nameGe
          (globJsonNames fs (note_history_dir np.stem))).Pairwise
          (fun n1 n2 => (nameGe n1 n2 = true ∧ n1 ≠ n2) ∧
            n1 ∈ globJsonNames fs (note_history_dir np.stem) ∧
            n2 ∈ globJsonNames fs (note_history_dir np.stem)) :=
        (h1.and h2).imp_of_mem (fun ha hb hr => ⟨hr, hmemg _ ha, hmemg _ hb⟩)
      refine pairwise_filterMap_of _ _ hR ?_
      intro n1 n2 hr m1 hf1 m2 hf2
      obtain ⟨⟨hge, hne⟩, hg1, hg2⟩ := hr
      obtain ⟨hread1, hid1⟩ := hextract n1 hg1 m1 hf1
      obtain ⟨hread2, hid2⟩ := hextract n2 hg2 m2 hf2
      have hidne : m1.version_id ≠ m2.version_id := by
        intro hc
        exact hne (by rw [hid1, hid2, hc])
      have hlt : pyStrLt n2 n1 = true := pyStrLt_of_ge_ne n1 n2 hge hne
      rw [hid1, hid2] at hlt
      have hglob1 := hg1
      have hglob2 := hg2
      rw [hid1] at hglob1
      rw [hid2] at hglob2
      have hpf1 : ¬ m2.version_id.data <+: m1.version_id.data :=
        hpf m2.version_id m1.version_id hglob2 hglob1 (fun hc => hidne hc.symm)
      have hpf2 : ¬ m1.version_id.data <+: m2.version_id.data :=
        hpf m1.version_id m2.version_id hglob1 hglob2 hidne
      have : pyStrLt (m2.version_id ++ ".json") (m1.version_id ++ ".json") =
          pyStrLt m2.version_id m1.version_id := by
        simp only [pyStrLt, String.data_append]
        exact charsLt_append_congr _ _ _ hpf1 hpf2
      rw [this] at hlt
      exact hlt

theorem list_versions_spec_witness :
    (list_versions wFS wNote).Pairwise
      (fun m1 m2 => pyStrLt m2.version_id m1.version_id = true) := by
  have hnd : (globJsonNames wFS (note_history_dir wNote.stem)).Nodup := by decide
  have hwf : ∀ n ∈ globJsonNames wFS (note_history_dir wNote.stem),
      ∃ m : Metadata,
        wFS.read (note_history_dir wNote.stem ++ [n]) = some (Entry.meta m) ∧
        n = m.version_id ++ ".json" := by
    intro n hn
    have hglob : globJsonNames wFS (note_history_dir wNote.stem) =
        ["20240101000001.json", "20240101000002.json"] := by decide
    rw [hglob] at hn
    have hn' : n = "20240101000001.json" ∨ n = "20240101000002.json" := by
      simpa using hn
    rcases hn' with rfl | rfl
    · exact ⟨wMeta1, by decide, by decide⟩
    · exact ⟨wMeta2, by decide, by decide⟩
  have hpf : ∀ u v : String,
      (u ++ ".json") ∈ globJsonNames wFS (note_history_dir wNote.stem) →
      (v ++ ".json") ∈ globJsonNames wFS (note_history_dir wNote.stem) →
      u ≠ v → ¬ u.data <+: v.data := by
    intro u v hu hv hne
    have hglob : globJsonNames wFS (note_history_dir wNote.stem) =
        ["20240101000001.json", "20240101000002.json"] := by decide
    rw [hglob] at hu hv
    have hu' : u ++ ".json" = "20240101000001.json" ∨
        u ++ ".json" = "20240101000002.json" := by
      simpa using hu
    have hv' : v ++ ".json" = "20240101000001.json" ∨
        v ++ ".json" = "20240101000002.json" := by
      simpa using hv
    have hu2 : u = "20240101000001" ∨ u = "20240101000002" := by
      rcases hu' with h | h
      · exact Or.inl (string_append_cancel_right h)
      · exact Or.inr (string_append_cancel_right h)
    have hv2 : v = "20240101000001" ∨ v = "20240101000002" := by
      rcases hv' with h | h
      · exact Or.inl (string_append_cancel_right h)
      · exact Or.inr (string_append_cancel_right h)
    rcases hu2 with rfl | rfl <;> rcases hv2 with rfl | rfl
    · exact absurd rfl hne
    · decide
    · decide
    · exact absurd rfl hne
  exact (list_versions_spec wFS wNote hnd hwf hpf).2.2

/-- C8: if either reference fails to resolve to a non-empty id, or
either resolved version's content is missing, `compare_versions`
returns the single-element error sequence, whose element begins with
"Error:"; no exception escapes (the model is total). -/
theorem compare_error_spec (fs : FS) (note_name : String) (ref1 ref2 : VersionRef)
    (h : ∀ id1 id2 : String,
      resolve_version_id fs (notePathFor note_name) ref1 = some id1 →
      resolve_version_id fs (notePathFor note_name) ref2 = some id2 →
      id1 ≠ "" → id2 ≠ "" →
      get_version_content fs note_name (VersionRef.id id1) = none ∨
      get_version_content fs note_name (VersionRef.id id2) = none) :
    compare_versions fs note_name ref1 ref2 =
      ["Error: One or both versions not found"] ∧
    strStartsWith "Error: One or both versions not found" "Error:" = true := by
  refine ⟨?_, by decide⟩
  cases h1 : resolve_version_id fs (notePathFor note_name) ref1 with
  | none => simp [compare_versions, h1]
  | some id1 =>
    cases h2 : resolve_version_id fs (notePathFor note_name) ref2 with
    | none => simp [compare_versions, h1, h2]
    | some id2 =>
      by_cases he : id1 = "" ∨ id2 = ""
      · simp [compare_versions, h1, h2, he]
      · push_neg at he
        rcases h id1 id2 h1 h2 he.1 he.2 with hc | hc
        · simp [compare_versions, h1, h2, hc, he.1, he.2]
        · cases hg1 : get_version_content fs note_name (VersionRef.id id1) with
          | none => simp [compare_versions, h1, h2, hg1, he.1, he.2]
          | some c1 => simp [compare_versions, h1, h2, hg1, hc, he.1, he.2]

theorem compare_error_spec_witness :
    compare_versions wFS "demo" (VersionRef.id "nope") (VersionRef.id "nope") =
      ["Error: One or both versions not found"] := by
  have hh : ∀ id1 id2 : String,
      resolve_version_id wFS (notePathFor "demo") (VersionRef.id "nope") = some id1 →
      resolve_version_id wFS (notePathFor "demo") (VersionRef.id "nope") = some id2 →
      id1 ≠ "" → id2 ≠ "" →
      get_version_content wFS "demo" (VersionRef.id id1) = none ∨
      get_version_content wFS "demo" (VersionRef.id id2) = none := by
    intro id1 id2 h1 h2 _ _
    have e1 : id1 = "nope" := by
      have : some "nope" = some id1 := h1
      exact (Option.some.injEq _ _ ▸ this).symm
    subst e1
    exact Or.inl (by decide)
  exact (compare_error_spec wFS "demo" (VersionRef.id "nope")
    (VersionRef.id "nope") hh).1

/-! Basic lemmas about the diagonal chain and `b2j`. -/

theorem dch_le_succ (l : List String) (alo : Nat) : ∀ i, dch l alo i ≤ i + 1 := by
  intro i
  induction i with
  | zero =>
    rw [dch]
    split_ifs <;> omega
  | succ n ih =>
    rw [dch]
    split_ifs <;> first | omega | (rw [show n + 1 - 1 = n from rfl]; omega)

theorem dch_le_sub (l : List String) (alo : Nat) :
    ∀ i, alo ≤ i → dch l alo i ≤ i + 1 - alo := by
  intro i
  induction i with
  | zero =>
    intro h
    rw [dch]
    split_ifs <;> omega
  | succ n ih =>
    intro h
    rw [dch]
    split_ifs with hp hle
    · omega
    · omega
    · rw [show n + 1 - 1 = n from rfl]
      have := ih (by omega)
      omega

theorem dch_pos_of_nonpop (l : List String) (alo i : Nat)
    (h : bPopular l (l.getD i "") = false) : 1 ≤ dch l alo i := by
  rw [dch, if_neg (by rw [h]; exact Bool.false_ne_true)]
  split <;> omega

theorem dch_of_pop (l : List String) (alo i : Nat)
    (h : bPopular l (l.getD i "") = true) : dch l alo i = 0 := by
  rw [dch, if_pos h]

theorem dch_of_nonpop_le (l : List String) (alo i : Nat)
    (h : bPopular l (l.getD i "") = false) (hle : i ≤ alo) : dch l alo i = 1 := by
  rw [dch, if_neg (by rw [h]; exact Bool.false_ne_true), dif_pos hle]

theorem dch_of_nonpop_gt (l : List String) (alo i : Nat)
    (h : bPopular l (l.getD i "") = false) (hgt : alo < i) :
    dch l alo i = dch l alo (i - 1) + 1 := by
  rw [dch, if_neg (by rw [h]; exact Bool.false_ne_true), dif_neg (by omega)]

theorem mem_b2j_iff (b : List String) (x : String) (j : Nat) :
    j ∈ b2j b x ↔ bPopular b x = false ∧ b[j]? = some x := by
  unfold b2j
  split_ifs with hp
  · simp [hp]
  · simp only [List.mem_filter, List.mem_range, decide_eq_true_eq]
    constructor
    · intro ⟨_, hg⟩
      exact ⟨by simp [hp], hg⟩
    · intro ⟨_, hg⟩
      refine ⟨?_, hg⟩
      by_contra hlt
      rw [List.getElem?_eq_none (by omega)] at hg
      cases hg

theorem b2j_sorted (b : List String) (x : String) :
    (b2j b x).Pairwise (· < ·) := by
  unfold b2j
  split_ifs
  · simp
  · exact List.Pairwise.sublist (List.filter_sublist _) (List.pairwise_lt_range _)

theorem j2lenGet_eq_zero (d : List (Nat × Nat)) (j : Nat)
    (h : ∀ q ∈ d, q.1 ≠ j) : j2lenGet d j = 0 := by
  unfold j2lenGet
  rw [List.find?_eq_none.mpr (fun q hq => by simp [h q hq])]

theorem j2lenGet_le (d : List (Nat × Nat)) (j B : Nat)
    (h : ∀ q ∈ d, q.1 = j → q.2 ≤ B) : j2lenGet d j ≤ B := by
  unfold j2lenGet
  cases hf : d.find? (fun q => q.1 == j) with
  | none => exact Nat.zero_le _
  | some q =>
    have hm := List.mem_of_find?_eq_some hf
    have hp := List.find?_some hf
    simp only [beq_iff_eq] at hp
    exact h q hm hp

theorem find?_key_unique (d : List (Nat × Nat)) (j v : Nat)
    (hmem : (j, v) ∈ d) (huniq : ∀ q ∈ d, q.1 = j → q = (j, v)) :
    d.find? (fun q => q.1 == j) = some (j, v) := by
  induction d with
  | nil => cases hmem
  | cons a d ih =>
    by_cases ha : a.1 = j
    · rw [List.find?_cons_of_pos _ (by simp [ha])]
      rw [huniq a (List.mem_cons_self _ _) ha]
    · rw [List.find?_cons_of_neg _ (by simp [ha])]
      refine ih ?_ (fun q hq hq1 => huniq q (List.mem_cons_of_mem _ hq) hq1)
      rcases List.mem_cons.mp hmem with hEq | hm
      · exact absurd (congrArg Prod.fst hEq.symm) ha
      · exact hm

theorem j2lenGet_map_reverse (f : Nat → Nat) (js : List Nat) (j : Nat)
    (hj : j ∈ js) :
    j2lenGet ((js.map (fun j => (j, f j))).reverse) j = f j := by
  unfold j2lenGet
  rw [find?_key_unique _ j (f j) ?_ ?_]
  · rw [List.mem_reverse]
    exact List.mem_map.mpr ⟨j, hj, rfl⟩
  · intro q hq hq1
    rw [List.mem_reverse] at hq
    obtain ⟨j', _, hj'⟩ := List.mem_map.mp hq
    rw [← hj'] at hq1 ⊢
    simp only at hq1
    rw [hq1]

/-! Characterisation of one inner-loop fold of `find_longest_match`. -/

theorem flmStep_fold_j2len (d0 : List (Nat × Nat)) (i : Nat) (js : List Nat)
    (st : FlmState) :
    (js.foldl (flmStep d0 i) st).j2len =
      (js.map (fun j => (j, (if j = 0 then 0 else j2lenGet d0 (j - 1)) + 1))).reverse
        ++ st.j2len := by
  induction js generalizing st with
  | nil => simp
  | cons j js ih =>
    rw [List.foldl_cons, ih]
    simp only [flmStep]
    split_ifs <;> simp_all

theorem flmStep_fold_nobump (d0 : List (Nat × Nat)) (i : Nat) (js : List Nat)
    (st : FlmState)
    (h : ∀ j ∈ js, (if j = 0 then 0 else j2lenGet d0 (j - 1)) + 1 ≤ st.bestsize) :
    (js.foldl (flmStep d0 i) st).besti = st.besti ∧
    (js.foldl (flmStep d0 i) st).bestj = st.bestj ∧
    (js.foldl (flmStep d0 i) st).bestsize = st.bestsize := by
  induction js generalizing st with
  | nil => exact ⟨rfl, rfl, rfl⟩
  | cons j js ih =>
    rw [List.foldl_cons]
    have hj := h j (List.mem_cons_self _ _)
    have hk : ¬ st.bestsize < (if j = 0 then 0 else j2lenGet d0 (j - 1)) + 1 := by
      omega
    simp only [flmStep]
    rw [if_neg hk]
    exact ih { st with j2len := (j, (if j = 0 then 0 else j2lenGet d0 (j - 1)) + 1) :: st.j2len }
      (fun j' hj' => h j' (List.mem_cons_of_mem _ hj'))

/-- One row of the `find_longest_match` main loop preserves the
identical-sequences invariant: candidate chains below the diagonal are
dominated by past diagonal chains, chains above it by the current one,
so the best match can only be bumped at the diagonal candidate. -/
theorem flmRow_inv (l : List String) (alo ahi : Nat) (hahi : ahi ≤ l.length)
    (i : Nat) (hi1 : alo ≤ i) (hi2 : i < ahi) (st : FlmState)
    (hinv : FlmInv l alo i st) :
    FlmInv l alo (i + 1) (flmRow (b2j l) l alo ahi st i) := by
  obtain ⟨hbb, hbi, hbs, hpast, hdict, hdnil, hget⟩ := hinv
  unfold flmRow
  cases hpop : bPopular l (l.getD i "") with
  | true =>
    have hjs : (b2j l (l.getD i "")).filter
        (fun j => decide (alo ≤ j) && decide (j < ahi)) = [] := by
      unfold b2j
      rw [if_pos hpop]
      rfl
    rw [hjs]
    simp only [List.foldl_nil]
    refine ⟨show st.bestj = st.besti from hbb, show alo ≤ st.besti from hbi,
      show st.besti + st.bestsize ≤ i + 1 from by omega, ?_, ?_, ?_, ?_⟩
    · intro j' hj1 hj2
      show dch l alo j' ≤ st.bestsize
      by_cases hji : j' = i
      · subst hji
        rw [dch_of_pop l alo j' hpop]
        exact Nat.zero_le _
      · exact hpast j' hj1 (by omega)
    · intro q hq
      exact absurd (hq : q ∈ ([] : List (Nat × Nat))) (List.not_mem_nil q)
    · intro _
      rfl
    · show j2lenGet ([] : List (Nat × Nat)) (i + 1 - 1) = _
      rw [j2lenGet_eq_zero _ _ (fun q hq => absurd hq (List.not_mem_nil q)),
        if_neg (by omega), show i + 1 - 1 = i from rfl, dch_of_pop l alo i hpop]
  | false =>
    have hjmem : ∀ j ∈ (b2j l (l.getD i "")).filter
        (fun j => decide (alo ≤ j) && decide (j < ahi)),
        alo ≤ j ∧ j < ahi ∧ l.getD j "" = l.getD i "" := by
      intro j hj
      rw [List.mem_filter] at hj
      obtain ⟨hj1, hj2⟩ := hj
      simp only [Bool.and_eq_true, decide_eq_true_eq] at hj2
      have hb := (mem_b2j_iff l _ j).mp hj1
      refine ⟨hj2.1, hj2.2, ?_⟩
      rw [List.getD_eq_getElem?_getD, hb.2]
      rfl
    have hjpop : ∀ j ∈ (b2j l (l.getD i "")).filter
        (fun j => decide (alo ≤ j) && decide (j < ahi)),
        bPopular l (l.getD j "") = false := by
      intro j hj
      rw [(hjmem j hj).2.2]
      exact hpop
    have hsorted : ((b2j l (l.getD i "")).filter
        (fun j => decide (alo ≤ j) && decide (j < ahi))).Pairwise (· < ·) :=
      List.Pairwise.sublist (List.filter_sublist _) (b2j_sorted l _)
    have hidiag : i ∈ (b2j l (l.getD i "")).filter
        (fun j => decide (alo ≤ j) && decide (j < ahi)) := by
      rw [List.mem_filter]
      refine ⟨(mem_b2j_iff l _ i).mpr ⟨hpop, ?_⟩, by simp [hi1, hi2]⟩
      rw [List.getElem?_eq_getElem (by omega), List.getD_eq_getElem?_getD,
        List.getElem?_eq_getElem (by omega)]
      rfl
    -- bounds for all candidate chain values
    have hkb : ∀ j ∈ (b2j l (l.getD i "")).filter
        (fun j => decide (alo ≤ j) && decide (j < ahi)),
        (if j = 0 then 0 else j2lenGet st.j2len (j - 1)) + 1 ≤ dch l alo j := by
      intro j hj
      have hjp := hjpop j hj
      have hj1 := (hjmem j hj).1
      by_cases hj0 : j = 0
      · subst hj0
        rw [if_pos rfl]
        exact dch_pos_of_nonpop l alo 0 hjp
      · rw [if_neg hj0]
        by_cases hjalo : j ≤ alo
        · rw [j2lenGet_eq_zero _ _ (fun q hq => by have := (hdict q hq).1; omega)]
          exact dch_pos_of_nonpop l alo j hjp
        · have hb : j2lenGet st.j2len (j - 1) ≤ dch l alo (j - 1) :=
            j2lenGet_le _ _ _ (fun q hq hq1 => hq1 ▸ (hdict q hq).2.1)
          rw [dch_of_nonpop_gt l alo j hjp (by omega)]
          omega
    have hkb2 : ∀ j ∈ (b2j l (l.getD i "")).filter
        (fun j => decide (alo ≤ j) && decide (j < ahi)),
        (if j = 0 then 0 else j2lenGet st.j2len (j - 1)) + 1 ≤ dch l alo i := by
      intro j hj
      by_cases hio : alo < i
      · have hb : (if j = 0 then 0 else j2lenGet st.j2len (j - 1)) ≤
            dch l alo (i - 1) := by
          split_ifs with h0
          · exact Nat.zero_le _
          · exact j2lenGet_le _ _ _ (fun q hq _ => (hdict q hq).2.2 hio)
        have hdeq : dch l alo i = dch l alo (i - 1) + 1 :=
          dch_of_nonpop_gt l alo i hpop hio
        omega
      · have hieq : i = alo := by omega
        have hdeq : dch l alo i = 1 := dch_of_nonpop_le l alo i hpop (by omega)
        have hdn := hdnil hieq
        have hz : (if j = 0 then 0 else j2lenGet st.j2len (j - 1)) = 0 := by
          split_ifs with h0
          · rfl
          · exact j2lenGet_eq_zero _ _ (fun q hq => by rw [hdn] at hq; cases hq)
        omega
    have hkdiag : (if i = 0 then 0 else j2lenGet st.j2len (i - 1)) + 1 =
        dch l alo i := by
      by_cases hio : alo < i
      · rw [if_neg (by omega), hget, if_neg (by omega)]
        exact (dch_of_nonpop_gt l alo i hpop hio).symm
      · have hieq : i = alo := by omega
        rw [dch_of_nonpop_le l alo i hpop (by omega)]
        by_cases h0 : i = 0
        · rw [if_pos h0]
        · rw [if_neg h0, hget, if_pos hieq]
    -- split the candidate list at the diagonal
    obtain ⟨L, H, hsplit⟩ := List.append_of_mem hidiag
    have hLmem : ∀ j ∈ L, j ∈ (b2j l (l.getD i "")).filter
        (fun j => decide (alo ≤ j) && decide (j < ahi)) := by
      intro j hj
      rw [hsplit]
      exact List.mem_append.mpr (Or.inl hj)
    have hHmem : ∀ j ∈ H, j ∈ (b2j l (l.getD i "")).filter
        (fun j => decide (alo ≤ j) && decide (j < ahi)) := by
      intro j hj
      rw [hsplit]
      exact List.mem_append.mpr (Or.inr (List.mem_cons_of_mem _ hj))
    have hLlt : ∀ j ∈ L, j < i := by
      rw [hsplit] at hsorted
      intro j hj
      exact (List.pairwise_append.mp hsorted).2.2 j hj i (List.mem_cons_self _ _)
    -- dict characterisation of the full row fold
    have hchar := flmStep_fold_j2len st.j2len i
      ((b2j l (l.getD i "")).filter (fun j => decide (alo ≤ j) && decide (j < ahi)))
      { st with j2len := [] }
    -- best-state through the three phases
    rw [hsplit, List.foldl_append, List.foldl_cons]
    obtain ⟨hL1, hL2, hL3⟩ := flmStep_fold_nobump st.j2len i L { st with j2len := [] }
      (fun j hj => le_trans (hkb j (hLmem j hj))
        (hpast j (hjmem j (hLmem j hj)).1 (hLlt j hj)))
    dsimp only at hL1 hL2 hL3
    have hdchle1 : dch l alo i ≤ i + 1 := dch_le_succ l alo i
    have hdchle2 : dch l alo i ≤ i + 1 - alo := dch_le_sub l alo i hi1
    set stL := L.foldl (flmStep st.j2len i) { st with j2len := [] } with hstL
    set stD := flmStep st.j2len i stL i with hstD
    have hDbb : stD.bestj = stD.besti := by
      rw [hstD]
      simp only [flmStep]
      rw [hkdiag]
      split_ifs with hc
      · rfl
      · dsimp only
        rw [hL2, hL1, hbb]
    have hDsize : stD.bestsize = max st.bestsize (dch l alo i) := by
      rw [hstD]
      simp only [flmStep]
      rw [hkdiag]
      split_ifs with hc
      · dsimp only
        rw [hL3] at hc
        omega
      · dsimp only
        rw [hL3] at hc ⊢
        omega
    have hDbi : alo ≤ stD.besti := by
      rw [hstD]
      simp only [flmStep]
      rw [hkdiag]
      split_ifs with hc
      · dsimp only
        omega
      · dsimp only
        rw [hL1]
        exact hbi
    have hDbs : stD.besti + stD.bestsize ≤ i + 1 := by
      rw [hstD]
      simp only [flmStep]
      rw [hkdiag]
      split_ifs with hc
      · dsimp only
        omega
      · dsimp only
        rw [hL1, hL3]
        omega
    obtain ⟨hH1, hH2, hH3⟩ := flmStep_fold_nobump st.j2len i H stD
      (fun j hj => by
        rw [hDsize]
        exact le_trans (hkb2 j (hHmem j hj)) (le_max_right _ _))
    refine ⟨?_, ?_, ?_, ?_, ?_, ?_, ?_⟩
    · rw [hH2, hH1, hDbb]
    · rw [hH1]
      exact hDbi
    · rw [hH1, hH3]
      exact hDbs
    · intro j' hj1 hj2
      rw [hH3, hDsize]
      by_cases hji : j' = i
      · subst hji
        exact le_max_right _ _
      · exact le_trans (hpast j' hj1 (by omega)) (le_max_left _ _)
    · intro q hq
      rw [hsplit, List.foldl_append, List.foldl_cons] at hchar
      rw [← hstL, ← hstD] at hchar
      rw [hchar, List.append_nil, List.mem_reverse] at hq
      obtain ⟨j, hjm, hje⟩ := List.mem_map.mp hq
      rw [← hje]
      simp only []
      rw [← hsplit] at hjm
      refine ⟨(hjmem j hjm).1, hkb j hjm, fun _ => ?_⟩
      rw [show i + 1 - 1 = i from rfl]
      exact hkb2 j hjm
    · intro hc
      omega
    · rw [hsplit, List.foldl_append, List.foldl_cons] at hchar
      rw [← hstL, ← hstD] at hchar
      rw [hchar, List.append_nil, show i + 1 - 1 = i from rfl, if_neg (by omega)]
      rw [← hsplit]
      rw [j2lenGet_map_reverse _ _ i hidiag]
      exact hkdiag

theorem flmMain_inv (l : List String) (alo ahi : Nat) (hlen : ahi ≤ l.length) :
    ∀ (cnt s : Nat), alo ≤ s → s + cnt ≤ ahi →
    ∀ st, FlmInv l alo s st →
    FlmInv l alo (s + cnt) ((List.range' s cnt).foldl (flmRow (b2j l) l alo ahi) st) := by
  intro cnt
  induction cnt with
  | zero =>
    intro s hs hend st h
    simpa using h
  | succ c ih =>
    intro s hs hend st h
    rw [List.range'_succ, List.foldl_cons]
    have h1 := flmRow_inv l alo ahi hlen s hs (by omega) st h
    have h2 := ih (s + 1) (by omega) (by omega) _ h1
    rw [show s + (c + 1) = (s + 1) + c from by omega]
    exact h2

theorem flmMain_self (l : List String) (alo ahi : Nat) (hle : alo ≤ ahi)
    (hlen : ahi ≤ l.length) :
    (flmMain (b2j l) l alo ahi alo ahi).bestj =
      (flmMain (b2j l) l alo ahi alo ahi).besti ∧
    alo ≤ (flmMain (b2j l) l alo ahi alo ahi).besti ∧
    (flmMain (b2j l) l alo ahi alo ahi).besti +
      (flmMain (b2j l) l alo ahi alo ahi).bestsize ≤ ahi := by
  have hinit : FlmInv l alo alo
      { j2len := [], besti := alo, bestj := alo, bestsize := 0 } := by
    refine ⟨rfl, le_refl _, Nat.le_refl alo, ?_, ?_, fun _ => rfl, ?_⟩
    · intro j' h1 h2
      omega
    · intro q hq
      exact absurd (hq : q ∈ ([] : List (Nat × Nat))) (List.not_mem_nil q)
    · show j2lenGet ([] : List (Nat × Nat)) (alo - 1) = _
      rw [j2lenGet_eq_zero _ _ (fun q hq => absurd hq (List.not_mem_nil q)),
        if_pos rfl]
  have h := flmMain_inv l alo ahi hlen (ahi - alo) alo (le_refl _) (by omega) _ hinit
  rw [show alo + (ahi - alo) = ahi from by omega] at h
  unfold flmMain
  exact ⟨h.1, h.2.1, h.2.2.1⟩

theorem extendBack_self_diag (l : List String) (alo : Nat) :
    ∀ (bi s : Nat), alo ≤ bi →
    extendBack l l alo alo bi bi bi s = (alo, alo, s + (bi - alo)) := by
  intro bi
  induction bi with
  | zero =>
    intro s h
    have h0 : alo = 0 := by omega
    subst h0
    rfl
  | succ n ih =>
    intro s h
    by_cases halo : alo < n + 1
    · simp only [extendBack]
      rw [if_pos (by refine ⟨halo, halo, ?_⟩ <;> trivial),
        show n + 1 - 1 = n from rfl, ih (s + 1) (by omega)]
      have harith : s + 1 + (n - alo) = s + (n + 1 - alo) := by omega
      rw [harith]
    · have heq : alo = n + 1 := by omega
      subst heq
      simp only [extendBack]
      rw [if_neg (fun hcon => absurd hcon.1 (lt_irrefl _))]
      simp

theorem extendFwd_self (l : List String) (alo ahi : Nat) :
    ∀ (fuel s : Nat), fuel = ahi - (alo + s) → alo + s ≤ ahi →
    extendFwd l l ahi ahi alo alo fuel s = ahi - alo := by
  intro fuel
  induction fuel with
  | zero =>
    intro s hf hs
    simp only [extendFwd]
    omega
  | succ f ih =>
    intro s hf hs
    simp only [extendFwd]
    rw [if_pos (by refine ⟨by omega, by omega, ?_⟩ <;> trivial)]
    exact ih (s + 1) (by omega) (by omega)

/-- On identical sequences, `find_longest_match` returns the whole
range: the main loop's best match is diagonal, and the two non-junk
extension loops then stretch it to the full interval. -/
theorem flm_self (l : List String) (alo ahi : Nat) (hle : alo ≤ ahi)
    (hlen : ahi ≤ l.length) :
    find_longest_match l l alo ahi alo ahi = (alo, alo, ahi - alo) := by
  obtain ⟨hbb, hbi, hbs⟩ := flmMain_self l alo ahi hle hlen
  unfold find_longest_match
  dsimp only
  rw [hbb, extendBack_self_diag l alo _ _ hbi]
  have hfwd := extendFwd_self l alo ahi
    (ahi - (alo + ((flmMain (b2j l) l alo ahi alo ahi).bestsize +
      ((flmMain (b2j l) l alo ahi alo ahi).besti - alo))))
    ((flmMain (b2j l) l alo ahi alo ahi).bestsize +
      ((flmMain (b2j l) l alo ahi alo ahi).besti - alo))
    rfl (by omega)
  rw [hfwd]

theorem matching_blocks_aux_empty (l : List String) (fuel a0 : Nat)
    (hlen : a0 ≤ l.length) :
    matching_blocks_aux l l fuel a0 a0 a0 a0 = [] := by
  cases fuel with
  | zero => rfl
  | succ f =>
    simp only [matching_blocks_aux]
    rw [flm_self l a0 a0 (le_refl _) hlen]
    simp

theorem matching_blocks_self (l : List String) (h : 0 < l.length) :
    get_matching_blocks l l = [(0, 0, l.length), (l.length, l.length, 0)] := by
  have haux : matching_blocks_aux l l (l.length + 1) 0 l.length 0 l.length =
      [(0, 0, l.length)] := by
    simp only [matching_blocks_aux]
    rw [flm_self l 0 l.length (Nat.zero_le _) (le_refl _)]
    dsimp only
    simp only [Nat.sub_zero, Nat.zero_add]
    rw [if_neg (by omega)]
    rw [matching_blocks_aux_empty l l.length 0 (Nat.zero_le _),
      matching_blocks_aux_empty l l.length l.length (le_refl _)]
    rfl
  have hsort : stableSort tripleLe [((0 : Nat), (0 : Nat), l.length)] =
      [(0, 0, l.length)] := rfl
  have hstep : List.foldl mergeStep ((0, 0, 0), ([] : List (Nat × Nat × Nat)))
      [(0, 0, l.length)] = ((0, 0, l.length), []) := by
    simp [mergeStep]
  unfold get_matching_blocks
  simp only [haux, hsort, hstep]
  rw [if_neg (Nat.pos_iff_ne_zero.mp h)]
  rfl

theorem get_opcodes_self (l : List String) :
    get_opcodes l l =
      if l.length = 0 then [] else [⟨Tag.equal, 0, l.length, 0, l.length⟩] := by
  by_cases h : l.length = 0
  · rw [if_pos h]
    have hl : l = [] := List.eq_nil_of_length_eq_zero h
    subst hl
    rfl
  · rw [if_neg h]
    unfold get_opcodes
    rw [matching_blocks_self l (Nat.pos_of_ne_zero h)]
    simp [h]

theorem get_grouped_self (l : List String) : get_grouped_opcodes l l = [] := by
  by_cases h : l.length = 0
  · have hc : get_opcodes l l = [] := by rw [get_opcodes_self, if_pos h]
    unfold get_grouped_opcodes
    rw [hc]
    rfl
  · have hc : get_opcodes l l = [⟨Tag.equal, 0, l.length, 0, l.length⟩] := by
      rw [get_opcodes_self, if_neg h]
    have h1 : groupTrimHead 3 [⟨Tag.equal, 0, l.length, 0, l.length⟩] =
        [⟨Tag.equal, l.length - 3, l.length, l.length - 3, l.length⟩] := by
      simp only [groupTrimHead]
      rw [if_pos trivial]
      simp [Nat.zero_max]
    have h2 : groupTrimLast 3
        [⟨Tag.equal, l.length - 3, l.length, l.length - 3, l.length⟩] =
        [⟨Tag.equal, l.length - 3, min l.length (l.length - 3 + 3), l.length - 3,
          min l.length (l.length - 3 + 3)⟩] := by
      simp only [groupTrimLast, List.getLast?_singleton]
      rw [if_pos trivial]
      simp
    have h3 : List.foldl (groupStep 3)
        (([] : List Opcode), ([] : List (List Opcode)))
        [⟨Tag.equal, l.length - 3, min l.length (l.length - 3 + 3), l.length - 3,
          min l.length (l.length - 3 + 3)⟩] =
        ([⟨Tag.equal, l.length - 3, min l.length (l.length - 3 + 3), l.length - 3,
          min l.length (l.length - 3 + 3)⟩], []) := by
      simp only [List.foldl_cons, List.foldl_nil, groupStep]
      rw [if_neg (by
        intro hcon
        have hlt := hcon.2
        omega)]
      simp
    unfold get_grouped_opcodes
    rw [hc]
    simp only [List.isEmpty_cons, Bool.false_eq_true, if_false, h1, h2, h3]
    simp

theorem unified_diff_self (l : List String) (f t : String) :
    unified_diff l l f t = [] := by
  unfold unified_diff
  rw [get_grouped_self]
  rfl

/-- C9. Diff identity: for every note and every version reference `v`
that resolves to a non-empty version id whose stored content exists,
`compare_versions note v v` returns the empty sequence — in particular
it contains no line prefixed with `+` or `-`. -/
theorem compare_self_no_changes (fs : FS) (note_name : String) (v : VersionRef)
    (vid c : String)
    (hres : resolve_version_id fs (notePathFor note_name) v = some vid)
    (hvid : vid ≠ "")
    (hc : get_version_content fs note_name (VersionRef.id vid) = some c) :
    compare_versions fs note_name v v = [] ∧
    ∀ line ∈ compare_versions fs note_name v v,
      strStartsWith line "+" = false ∧ strStartsWith line "-" = false := by
  have hmain : compare_versions fs note_name v v = [] := by
    simp only [compare_versions, hres, hc]
    rw [if_neg (by simp [hvid])]
    exact unified_diff_self _ _ _
  refine ⟨hmain, ?_⟩
  intro line hl
  rw [hmain] at hl
  exact absurd hl (List.not_mem_nil line)

theorem compare_self_no_changes_witness :
    (resolve_version_id wFS (notePathFor "demo") (VersionRef.idx 0) =
        some "20240101000001" ∧
      get_version_content wFS "demo" (VersionRef.id "20240101000001") =
        some "A") ∧
    compare_versions wFS "demo" (VersionRef.idx 0) (VersionRef.idx 0) = [] :=
  ⟨⟨by decide, by decide⟩,
    (compare_self_no_changes wFS "demo" (VersionRef.idx 0) "20240101000001" "A"
      (by decide) (by decide) (by decide)).1⟩

end Numen
